import Mathlib

/-!
Verification of the document indexing and retrieval subsystem of a
NotebookLM-style PDF question-answering server (`backend/app.js`).

The development shallowly embeds the relevant JavaScript functions:

* `chunkText` (text chunking with overlapping fixed-size windows),
* `createInMemoryIndex` (cosine-similarity vector index and its `search`),
* the `/upload` embedding validation step,
* `cleanupExpiredSessions` (session expiry sweep),
* `checkUploadRateLimit` (per-client upload rate limiting),
* the `/chat` request validation and context assembly.

JavaScript numbers are modelled as `Int` (integer-valued quantities such as
loop offsets, timestamps and counts) or `ℚ` (vector components and scores);
where the distinction between a finite number and `NaN`/`Infinity` matters,
an explicit sum type or `Option` is used.  `Math.sqrt` is an external
primitive and is passed as an explicit function parameter `sq`; the concrete
`sqrtExact` below agrees with `Math.sqrt` on perfect squares (and on `0`)
and is used to instantiate closed witnesses.
-/

namespace NotebookLM

/-- ECMAScript `Array.prototype.slice` / `String.prototype.slice` on lists:
negative bounds count from the end, and both bounds are clamped to
`[0, length]`. -/
def jsSlice {α : Type} (s : List α) (start stop : Int) : List α :=
  let len : Int := s.length
  let st : Int := if start < 0 then max (len + start) 0 else min start len
  let en : Int := if stop < 0 then max (len + stop) 0 else min stop len
  (s.drop st.toNat).take (en - st).toNat

/-- The loop of `chunkText` (app.js lines 308-314), with explicit fuel so that
the possible non-termination of the JavaScript `for` loop
(`for (let i = 0; i < text.length; i += chunkSize - overlap)`) is observable:
`none` means the loop did not finish within `fuel` iterations. -/
def chunkLoop (fuel : Nat) (text : List Char) (chunkSize overlap : Int)
    (i : Int) (acc : List (List Char)) : Option (List (List Char)) :=
  match fuel with
  | 0 => none
  | fuel + 1 =>
    if i < (text.length : Int) then
      chunkLoop fuel text chunkSize overlap (i + (chunkSize - overlap))
        (acc ++ [jsSlice text i (i + chunkSize)])
    else
      some acc

/-- The call `chunkText(text, chunkSize, overlap)` run with the given fuel; the source
defaults are `chunkSize = 512`, `overlap = 128`. -/
def chunkTextFuel (fuel : Nat) (text : List Char) (chunkSize overlap : Int) :
    Option (List (List Char)) :=
  chunkLoop fuel text chunkSize overlap 0 []

/-- The JavaScript `chunkText` call terminates: some finite fuel suffices. -/
def chunkTextTerminates (text : List Char) (chunkSize overlap : Int) : Prop :=
  ∃ fuel, (chunkTextFuel fuel text chunkSize overlap).isSome

/-- Terminating reference form of the `chunkText` loop for a positive step
`s + 1`: emit `text.slice(i, i + chunkSize)` and advance the offset by
`s + 1` until the offset reaches the end of the text. -/
def chunkTextGo (text : List Char) (chunkSize : Int) (s : Nat) (i : Nat) :
    List (List Char) :=
  if h : i < text.length then
    jsSlice text (i : Int) ((i : Int) + chunkSize) ::
      chunkTextGo text chunkSize s (i + s + 1)
  else []
termination_by text.length - i
decreasing_by omega

/-- Function `chunkText` as a total function, meaningful when
`0 < chunkSize - overlap` (then `(chunkSize - overlap).toNat - 1 + 1` is
exactly the loop step `chunkSize - overlap`). -/
def chunkTextRun (text : List Char) (chunkSize overlap : Int) :
    List (List Char) :=
  chunkTextGo text chunkSize ((chunkSize - overlap).toNat - 1) 0

/-- Concatenation of a chunk list in which every chunk except the last is cut
back to its first `step` characters (the claimed reconstruction of the
original text from overlapping chunks). -/
def reconstruct (step : Nat) : List (List Char) → List Char
  | [] => []
  | [c] => c
  | c :: rest => c.take step ++ reconstruct step rest

/-! ## Vector index (`createInMemoryIndex`, app.js lines 316-332)

Vector components and scores are rationals.  `Math.sqrt` is an external
primitive of the JavaScript runtime; the embedding abstracts it as an
explicit function parameter `sq : ℚ → ℚ`.  No theorem below depends on the
value of `sq` beyond `Math.sqrt 0 = 0` where stated.  For closed witnesses
`sqrtExact` is used; it agrees with `Math.sqrt` on rationals whose numerator
and denominator are perfect squares (in particular `sqrtExact 0 = 0` and
`sqrtExact 1 = 1`, `sqrtExact 4 = 2`). -/

/-- Executable square root agreeing with `Math.sqrt` on perfect squares. -/
def sqrtExact (x : ℚ) : ℚ := (Nat.sqrt x.num.toNat : ℚ) / (Nat.sqrt x.den : ℚ)

/-- One element of the `scores` array built by `search`:
`{ score: ..., index: i }`. -/
structure ScoredEntry where
  score : ℚ
  index : Nat
deriving DecidableEq

/-- The dot product `emb.reduce((sum, val, j) => sum + val * queryVector[j], 0)`.
`queryVector[j]` is modelled as `queryVector.getD j 0`; the default is only
reachable when `emb` is longer than `queryVector` (where JavaScript would
produce `NaN`), a situation excluded by the dimension invariant of the spec and by
the hypotheses of the theorems that depend on score values. -/
def jsDot (queryVector emb : List ℚ) : ℚ :=
  emb.enum.foldl (fun sum p => sum + p.2 * queryVector.getD p.1 0) 0

/-- The fold `reduce((sum, val) => sum + val * val, 0)` — the squared Euclidean norm. -/
def sumSq (v : List ℚ) : ℚ := v.foldl (fun sum val => sum + val * val) 0

/-- The score of one chunk in `createInMemoryIndex.search`:
`dot / (normA * normB || 1)` where `normA`/`normB` are `Math.sqrt` of the
squared norms.  `x || 1` returns `1` when `x` is falsy (in particular `0`). -/
def cosineScore (sq : ℚ → ℚ) (emb queryVector : List ℚ) : ℚ :=
  jsDot queryVector emb /
    (if sq (sumSq emb) * sq (sumSq queryVector) = 0 then 1
      else sq (sumSq emb) * sq (sumSq queryVector))

/-- JavaScript division producing a plain finite number: `none` models the
non-finite results (`0/0 = NaN`, `x/0 = ±Infinity`). -/
def jsDivNum (a b : ℚ) : Option ℚ := if b = 0 then none else some (a / b)

/-- The score of one chunk in the upload-time in-memory fallback of the first
version (app.js lines 99-110): `dot / (normA * normB)` with no `|| 1`
guard, so a zero denominator produces a non-finite score. -/
def cosineScoreV1 (sq : ℚ → ℚ) (emb queryVector : List ℚ) : Option ℚ :=
  jsDivNum (jsDot queryVector emb) (sq (sumSq emb) * sq (sumSq queryVector))

/-- The `scores` array: one entry `{ score, index }` per embedding, in
original chunk order. -/
def searchScores (sq : ℚ → ℚ) (embeddings : List (List ℚ))
    (queryVector : List ℚ) : List ScoredEntry :=
  embeddings.enum.map fun p => ⟨cosineScore sq p.2 queryVector, p.1⟩

/-- The ordering realised by the stable JavaScript sort
`scores.sort((a, b) => b.score - a.score)` on the position-ordered `scores`
array: higher score first, and for equal scores the entry with the lower
original index first (stability). -/
def rankLE (a b : ScoredEntry) : Prop :=
  b.score < a.score ∨ (a.score = b.score ∧ a.index ≤ b.index)

instance : DecidableRel rankLE := fun a b =>
  decidable_of_iff (b.score < a.score ∨ (a.score = b.score ∧ a.index ≤ b.index))
    Iff.rfl

instance : IsTotal ScoredEntry rankLE where
  total a b := by
    unfold rankLE
    rcases lt_trichotomy a.score b.score with h | h | h
    · exact Or.inr (Or.inl h)
    · rcases Nat.le_total a.index b.index with hi | hi
      · exact Or.inl (Or.inr ⟨h, hi⟩)
      · exact Or.inr (Or.inr ⟨h.symm, hi⟩)
    · exact Or.inl (Or.inl h)

instance : IsTrans ScoredEntry rankLE where
  trans a b c hab hbc := by
    unfold rankLE at *
    rcases hab with h1 | ⟨e1, i1⟩
    · rcases hbc with h2 | ⟨e2, i2⟩
      · exact Or.inl (h2.trans h1)
      · exact Or.inl (by rw [← e2]; exact h1)
    · rcases hbc with h2 | ⟨e2, i2⟩
      · exact Or.inl (by rw [e1]; exact h2)
      · exact Or.inr ⟨e1.trans e2, i1.trans i2⟩

/-- Strictly descending score with ties broken by strictly ascending original
chunk index — the ordering the claim asserts of the returned sequence. -/
def rankStrict (a b : ScoredEntry) : Prop :=
  b.score < a.score ∨ (a.score = b.score ∧ a.index < b.index)

/-- The fully sorted `scores` array (`scores.sort((a, b) => b.score - a.score)`
under stable-sort semantics). -/
def rankedEntries (sq : ℚ → ℚ) (embeddings : List (List ℚ))
    (queryVector : List ℚ) : List ScoredEntry :=
  List.insertionSort rankLE (searchScores sq embeddings queryVector)

/-- The value returned by `createInMemoryIndex(embeddings).search(queryVector, k)`:
`{ distances, indices }`. -/
structure SearchResult where
  distances : List ℚ
  indices : List Nat
deriving DecidableEq

/-- The call `createInMemoryIndex(embeddings).search(queryVector, k)` (default
`k = 3`): distances are `1 - score` sorted ascending and sliced to `k`;
indices are the index projection of the score-sorted entries sliced to `k`. -/
def search (sq : ℚ → ℚ) (embeddings : List (List ℚ)) (queryVector : List ℚ)
    (k : Int) : SearchResult :=
  { distances :=
      jsSlice (List.insertionSort (fun a b : ℚ => a ≤ b)
        ((searchScores sq embeddings queryVector).map fun s => 1 - s.score)) 0 k,
    indices :=
      (jsSlice (List.insertionSort rankLE
        (searchScores sq embeddings queryVector)) 0 k).map ScoredEntry.index }

/-! ## Upload-time embedding validation (app.js lines 364-371) -/

/-- A JavaScript number value as it can appear in an embedding component
after `Array.from(output.data).map(Number)`: a finite number, `NaN`, or an
infinity.  All four variants have the JavaScript type tag "number". -/
inductive JSNumber where
  | num (q : ℚ)
  | nan
  | posInf
  | negInf
deriving DecidableEq

/-- The test `typeof x` equals "number" — true for every `JSNumber` variant. -/
def jsTypeofIsNumber : JSNumber → Bool := fun _ => true

/-- JavaScript `isNaN` on a number value. -/
def jsIsNaN : JSNumber → Bool
  | JSNumber.nan => true
  | _ => false

/-- Whether a component is a finite number. -/
def isFiniteNum : JSNumber → Bool
  | JSNumber.num _ => true
  | _ => false

/-- The `/upload` per-chunk validation:
`embedding.every(num => typeof num is a number && !isNaN(num))`. -/
def validateEmbedding (v : List JSNumber) : Bool :=
  v.all fun n => jsTypeofIsNumber n && !(jsIsNaN n)

/-- The `/upload` embedding step for chunk `i`: throw
`Invalid embedding for chunk i` when validation fails, otherwise return the
vector for insertion into the index. -/
def embedChunkStep (i : Nat) (v : List JSNumber) : Except String (List JSNumber) :=
  if validateEmbedding v then Except.ok v
  else Except.error ("Invalid embedding for chunk " ++ toString i)

/-! ## Session store and expiry sweep (app.js lines 289-306, 375-381) -/

/-- One session bundle: the index embeddings, the chunk texts, the per-chunk
page attributions, and the last-accessed timestamp. -/
structure Session where
  embeddings : List (List ℚ)
  chunks : List String
  pages : List Nat
  lastAccessed : Int
deriving DecidableEq

/-- Constant `SESSION_TIMEOUT = 24 * 60 * 60 * 1000` — 24 hours in milliseconds. -/
def SESSION_TIMEOUT : Int := 24 * 60 * 60 * 1000

/-- The removal condition of `cleanupExpiredSessions`:
`sessions[id] && sessions[id].lastAccessed && (now - lastAccessed) > timeout`.
A falsy (zero) `lastAccessed` short-circuits the conjunction. -/
def sessionExpired (now timeout : Int) (s : Session) : Bool :=
  s.lastAccessed != 0 && decide (timeout < now - s.lastAccessed)

/-- Function `cleanupExpiredSessions`: delete every entry satisfying the removal
condition (the JavaScript function iterates a snapshot of the keys and
deletes in place; it returns `undefined`, not a count).  The source fixes
`timeout` to `SESSION_TIMEOUT`; the model takes it as a parameter. -/
def cleanupExpiredSessions (store : List (String × Session)) (now timeout : Int) :
    List (String × Session) :=
  store.filter fun e => !(sessionExpired now timeout e.2)

/-! ## Chat request validation (app.js lines 391-407) -/

/-- Outcome of the `/chat` validation prefix: a 400 bad-request response, a
404 not-found response, or continuation into the retrieval pipeline (the
only path on which the embedder and the completion provider are called). -/
inductive ChatValidation where
  | badRequest (msg : String)
  | notFound
  | proceed
deriving DecidableEq

/-- Only the `proceed` outcome goes on to call the embedding and completion
models. -/
def reachesModelCalls : ChatValidation → Bool
  | ChatValidation.proceed => true
  | _ => false

/-- Whether the outcome is a 400 bad-request response. -/
def isBadRequest : ChatValidation → Bool
  | ChatValidation.badRequest _ => true
  | _ => false

/-- The `sessions[session_id]` lookup. -/
def lookupSession (store : List (String × Session)) (sid : String) :
    Option Session :=
  (store.find? fun e => e.1 == sid).map Prod.snd

/-- The assignment `session.lastAccessed = Date.now()` on the stored entry. -/
def touchSession (store : List (String × Session)) (sid : String) (now : Int) :
    List (String × Session) :=
  store.map fun e =>
    if e.1 == sid then (e.1, { e.2 with lastAccessed := now }) else e

/-- The blank test `message.trim().length === 0`: trimming leaves the empty
string exactly when every character is whitespace. -/
def isBlank (msg : String) : Bool := msg.toList.all fun c => c.isWhitespace

/-- The validation prefix of `POST /chat`.  A request field is `none` when
absent from the body or not a string (a failing `typeof` check); the empty
string is falsy (`!session_id`), and a blank message is caught by
`message.trim().length === 0` (which also covers `!message` for `""`),
modelled by `isBlank`.  Validation happens strictly before any model call;
only on success is the session touched and the pipeline entered. -/
def chatValidate (store : List (String × Session))
    (session_id message : Option String) (now : Int) :
    ChatValidation × List (String × Session) :=
  match session_id with
  | none => (ChatValidation.badRequest "Valid session_id is required", store)
  | some sid =>
    if sid = "" then
      (ChatValidation.badRequest "Valid session_id is required", store)
    else
      match message with
      | none => (ChatValidation.badRequest "Valid message is required", store)
      | some msg =>
        if isBlank msg then
          (ChatValidation.badRequest "Valid message is required", store)
        else
          match lookupSession store sid with
          | none => (ChatValidation.notFound, store)
          | some _ => (ChatValidation.proceed, touchSession store sid now)

/-! ## Chat context assembly (app.js lines 416-424) -/

/-- The bounds filter:
`indices.filter(i => i >= 0 && i < chunks.length)`. -/
def validIndices (chunks : List String) (indices : List Int) : List Int :=
  indices.filter fun i => decide (0 ≤ i) && decide (i < (chunks.length : Int))

/-- One citation: `metadata[i]?.page || 1` — the page at position `i`, with
`1` substituted when the metadata entry is missing or its page is falsy. -/
def citationPage (pages : List Nat) (i : Int) : Nat :=
  if pages.getD i.toNat 0 = 0 then 1 else pages.getD i.toNat 0

/-- The `/chat` context and citations:
`context = join of chunks[i] over validIndices with newline, or the sentinel when empty`;
`citations = validIndices.length > 0 ? validIndices.map(i => metadata[i]?.page || 1) : []`. -/
def assembleContext (chunks : List String) (pages : List Nat)
    (indices : List Int) : String × List Nat :=
  (if 0 < (validIndices chunks indices).length then
      String.intercalate "\n"
        ((validIndices chunks indices).map fun i => chunks.getD i.toNat "")
    else "No relevant context found",
   if 0 < (validIndices chunks indices).length then
      (validIndices chunks indices).map (citationPage pages)
    else [])

/-! ## Upload rate limiting (app.js lines 268-287) -/

/-- Constant `UPLOAD_RATE_LIMIT = 5` uploads per window per client. -/
def UPLOAD_RATE_LIMIT : Nat := 5

/-- Constant `UPLOAD_WINDOW = 60 * 1000` milliseconds. -/
def UPLOAD_WINDOW : Int := 60 * 1000

/-- The read `uploadTracker.get(ip) || []`. -/
def trackerGet (tracker : List (String × List Int)) (ip : String) : List Int :=
  ((tracker.find? fun e => e.1 == ip).map Prod.snd).getD []

/-- The write `uploadTracker.set(ip, v)` — replace the entry if present, else append. -/
def trackerSet (tracker : List (String × List Int)) (ip : String)
    (v : List Int) : List (String × List Int) :=
  if (tracker.find? fun e => e.1 == ip).isSome then
    tracker.map fun e => if e.1 == ip then (e.1, v) else e
  else tracker ++ [(ip, v)]

/-- Function `checkUploadRateLimit(ip)`: filter the recorded upload times of the client to
the current window; if already at the limit return `false` without writing;
otherwise record `now` and return `true`. -/
def checkUploadRateLimit (tracker : List (String × List Int)) (ip : String)
    (now : Int) : Bool × List (String × List Int) :=
  if UPLOAD_RATE_LIMIT ≤
      ((trackerGet tracker ip).filter fun t =>
        decide (now - t < UPLOAD_WINDOW)).length then
    (false, tracker)
  else
    (true, trackerSet tracker ip
      (((trackerGet tracker ip).filter fun t =>
        decide (now - t < UPLOAD_WINDOW)) ++ [now]))

/-! ## Properties -/

/-- With a non-positive step the `chunkText` loop never exits: the offset
never increases, so the exit test `i < text.length` stays true on non-empty
text and every amount of fuel is exhausted. -/
theorem chunkLoop_stuck (text : List Char) (chunkSize overlap : Int)
    (hstep : chunkSize - overlap ≤ 0) (htext : 0 < text.length) :
    ∀ (fuel : Nat) (i : Int) (acc : List (List Char)), i ≤ 0 →
      chunkLoop fuel text chunkSize overlap i acc = none := by
  intro fuel
  induction fuel with
  | zero => intro i acc _; rfl
  | succ n ih =>
      intro i acc hi
      have hcond : i < (text.length : Int) := by
        have : (0 : Int) < (text.length : Int) := by exact_mod_cast htext
        omega
      simp only [chunkLoop, if_pos hcond]
      exact ih _ _ (by omega)

/-- C1 counterexample: `chunkText("a", 2, 2)` (overlap equal to size) is not
rejected with a configuration error — the loop simply never terminates: no
amount of fuel makes it return. -/
theorem chunkText_overlap_eq_size_diverges :
    ¬ chunkTextTerminates ['a'] 2 2 := by
  rintro ⟨fuel, h⟩
  rw [chunkTextFuel,
    chunkLoop_stuck ['a'] 2 2 (by norm_num) (by simp) fuel 0 [] le_rfl] at h
  simp at h

/-- C1 (amended): `chunkText` performs no validation of its parameters.  With
`overlap ≥ size` no configuration error is raised: on non-empty text the loop
never terminates, and on empty text it returns the empty chunk list. -/
theorem chunkText_no_overlap_validation (text : List Char)
    (chunkSize overlap : Int) (h : chunkSize ≤ overlap) :
    (text ≠ [] → ¬ chunkTextTerminates text chunkSize overlap) ∧
    (text = [] → chunkTextFuel 1 text chunkSize overlap = some []) := by
  constructor
  · rintro hne ⟨fuel, hf⟩
    rw [chunkTextFuel,
      chunkLoop_stuck text chunkSize overlap (by omega)
        (List.length_pos.mpr hne) fuel 0 [] le_rfl] at hf
    simp at hf
  · intro he
    subst he
    rfl

/-- Witness for C1 at size = overlap = 2 on the text "ab". -/
theorem chunkText_no_overlap_validation_witness :
    (2 : Int) ≤ 2 ∧
    ((['a', 'b'] ≠ ([] : List Char) → ¬ chunkTextTerminates ['a', 'b'] 2 2) ∧
      (['a', 'b'] = ([] : List Char) →
        chunkTextFuel 1 ['a', 'b'] 2 2 = some [])) :=
  ⟨by decide, chunkText_no_overlap_validation ['a', 'b'] 2 2 (by decide)⟩

/-- For non-negative bounds of the form `start, start + size`, the JavaScript
slice is drop-then-take. -/
theorem jsSlice_of_nonneg {α : Type} (l : List α) (start sz : Int)
    (h0 : 0 ≤ start) (h1 : 0 ≤ sz) :
    jsSlice l start (start + sz) = (l.drop start.toNat).take sz.toNat := by
  unfold jsSlice
  have hns : ¬ start < 0 := by omega
  have hne : ¬ start + sz < 0 := by omega
  simp only [if_neg hns, if_neg hne]
  by_cases hlen : start ≤ (l.length : Int)
  · have hmin : min start (l.length : Int) = start := min_eq_left hlen
    rw [hmin, List.take_eq_take]
    simp only [List.length_drop]
    omega
  · have hmin : min start (l.length : Int) = (l.length : Int) :=
      min_eq_right (by omega)
    have hmin2 : min (start + sz) (l.length : Int) = (l.length : Int) :=
      min_eq_right (by omega)
    rw [hmin, hmin2]
    rw [List.drop_eq_nil_of_le (by simp), List.drop_eq_nil_of_le (by omega)]
    simp

/-- A membership index `j` is a valid chunk position exactly when its offset
`i + j * (s + 1)` lies before the end of the text: the loop emits one chunk
per offset and stops at the first offset past the end. -/
theorem chunkTextGo_length_iff (text : List Char) (cs : Int) (s : Nat)
    (i j : Nat) :
    j < (chunkTextGo text cs s i).length ↔ i + j * (s + 1) < text.length := by
  rw [chunkTextGo]
  by_cases h : i < text.length
  · simp only [dif_pos h, List.length_cons]
    cases j with
    | zero => omega
    | succ j =>
        have ih := chunkTextGo_length_iff text cs s (i + s + 1) j
        have e : i + (j + 1) * (s + 1) = i + s + 1 + j * (s + 1) := by ring
        rw [e, Nat.add_lt_add_iff_right]
        exact ih
  · simp only [dif_neg h, List.length_nil]
    have e : i + j * (s + 1) ≥ i := by omega
    omega
termination_by text.length - i

/-- Each emitted chunk is the slice of the text at its offset. -/
theorem chunkTextGo_getD (text : List Char) (cs : Int) (s : Nat) (i j : Nat)
    (hj : j < (chunkTextGo text cs s i).length) :
    (chunkTextGo text cs s i).getD j [] =
      jsSlice text ((i + j * (s + 1) : Nat) : Int)
        (((i + j * (s + 1) : Nat) : Int) + cs) := by
  rw [chunkTextGo] at hj ⊢
  by_cases h : i < text.length
  · simp only [dif_pos h] at hj ⊢
    cases j with
    | zero => simp
    | succ j =>
        simp only [List.getD_cons_succ]
        have ih := chunkTextGo_getD text cs s (i + s + 1) j
          (by simpa [List.length_cons, Nat.succ_lt_succ_iff] using hj)
        have e : i + s + 1 + j * (s + 1) = i + (j + 1) * (s + 1) := by ring
        rw [ih, e]
  · simp only [dif_neg h, List.length_nil] at hj
    omega
termination_by text.length - i

/-- Helper equation for `reconstruct` on a cons with a non-empty tail. -/
theorem reconstruct_cons_of_ne (step : Nat) (c : List Char)
    (rest : List (List Char)) (h : rest ≠ []) :
    reconstruct step (c :: rest) = c.take step ++ reconstruct step rest := by
  cases rest with
  | nil => exact absurd rfl h
  | cons r rs => rfl

/-- Dropping the overlapping suffix of every chunk but the last and
concatenating recovers the suffix of the text the loop started from. -/
theorem reconstruct_chunkTextGo (text : List Char) (cs : Int) (s : Nat)
    (hcs : (s : Int) + 1 ≤ cs) :
    ∀ i : Nat, reconstruct (s + 1) (chunkTextGo text cs s i) = text.drop i := by
  intro i
  rw [chunkTextGo]
  by_cases h : i < text.length
  · simp only [dif_pos h]
    have hslice : jsSlice text (i : Int) ((i : Int) + cs) =
        (text.drop i).take cs.toNat := by
      exact_mod_cast jsSlice_of_nonneg text (i : Int) cs (by omega) (by omega)
    by_cases h2 : i + s + 1 < text.length
    · have htail : chunkTextGo text cs s (i + s + 1) ≠ [] := by
        intro hnil
        have := (chunkTextGo_length_iff text cs s (i + s + 1) 0).mpr (by omega)
        rw [hnil] at this
        simp at this
      rw [reconstruct_cons_of_ne _ _ _ htail,
        reconstruct_chunkTextGo text cs s hcs (i + s + 1), hslice,
        List.take_take, min_eq_left (by omega)]
      have hdd : text.drop (i + s + 1) = (text.drop i).drop (s + 1) :=
        (List.drop_drop (s + 1) i text).symm
      rw [hdd]
      exact List.take_append_drop (s + 1) (text.drop i)
    · have htail : chunkTextGo text cs s (i + s + 1) = [] := by
        rw [chunkTextGo]
        simp [dif_neg h2]
      rw [htail]
      show jsSlice text (i : Int) ((i : Int) + cs) = text.drop i
      rw [hslice]
      exact List.take_of_length_le (by simp [List.length_drop]; omega)
  · simp only [dif_neg h]
    rw [List.drop_eq_nil_of_le (by omega)]
    rfl
termination_by i => text.length - i

/-- With a positive step, the fueled loop completes once the fuel exceeds the
remaining length, and its value is the terminating reference computation. -/
theorem chunkLoop_run (text : List Char) (cs ov : Int) (hstep : 1 ≤ cs - ov) :
    ∀ (fuel i : Nat) (acc : List (List Char)), text.length - i < fuel →
      chunkLoop fuel text cs ov (i : Int) acc =
        some (acc ++ chunkTextGo text cs ((cs - ov).toNat - 1) i) := by
  intro fuel
  induction fuel with
  | zero => intro i acc h; omega
  | succ n ih =>
      intro i acc h
      by_cases hc : i < text.length
      · have hcast : (i : Int) < (text.length : Int) := by exact_mod_cast hc
        rw [chunkTextGo]
        simp only [dif_pos hc]
        simp only [chunkLoop, if_pos hcast]
        have harg : (i : Int) + (cs - ov) =
            ((i + ((cs - ov).toNat - 1) + 1 : Nat) : Int) := by
          push_cast
          omega
        rw [harg, ih (i + ((cs - ov).toNat - 1) + 1) _ (by omega)]
        simp
      · have hcast : ¬ (i : Int) < (text.length : Int) := by exact_mod_cast hc
        simp only [chunkLoop, if_neg hcast]
        rw [chunkTextGo]
        simp only [dif_neg hc]
        simp

/-- C2: with `0 ≤ overlap < size`, `chunkText` terminates (fuel
`text.length + 1` suffices and returns the reference value); chunk `j` exists
exactly when its offset `j * (size - overlap)` is before the end of the text;
chunk `j` is `text.slice(offset, offset + size)`; and concatenating the
chunks after cutting each one except the last back to its first
`size - overlap` characters reconstructs the text. -/
theorem chunkText_correct (text : List Char) (chunkSize overlap : Int)
    (h0 : 0 ≤ overlap) (h1 : overlap < chunkSize) :
    chunkTextFuel (text.length + 1) text chunkSize overlap =
        some (chunkTextRun text chunkSize overlap) ∧
    (∀ j : Nat, j < (chunkTextRun text chunkSize overlap).length ↔
        j * (chunkSize - overlap).toNat < text.length) ∧
    (∀ j : Nat, j < (chunkTextRun text chunkSize overlap).length →
        (chunkTextRun text chunkSize overlap).getD j [] =
          jsSlice text ((j * (chunkSize - overlap).toNat : Nat) : Int)
            (((j * (chunkSize - overlap).toNat : Nat) : Int) + chunkSize)) ∧
    reconstruct (chunkSize - overlap).toNat
        (chunkTextRun text chunkSize overlap) = text := by
  have hstep : 1 ≤ chunkSize - overlap := by omega
  have hs : (chunkSize - overlap).toNat - 1 + 1 = (chunkSize - overlap).toNat := by
    omega
  refine ⟨?_, ?_, ?_, ?_⟩
  · have := chunkLoop_run text chunkSize overlap hstep (text.length + 1) 0 []
      (by omega)
    simpa [chunkTextFuel, chunkTextRun] using this
  · intro j
    have := chunkTextGo_length_iff text chunkSize
      ((chunkSize - overlap).toNat - 1) 0 j
    rw [hs] at this
    simpa [chunkTextRun] using this
  · intro j hj
    have := chunkTextGo_getD text chunkSize ((chunkSize - overlap).toNat - 1)
      0 j (by simpa [chunkTextRun] using hj)
    rw [hs] at this
    simpa [chunkTextRun] using this
  · have hcs : (((chunkSize - overlap).toNat - 1 : Nat) : Int) + 1 ≤ chunkSize := by
      omega
    have := reconstruct_chunkTextGo text chunkSize
      ((chunkSize - overlap).toNat - 1) hcs 0
    rw [hs] at this
    simpa [chunkTextRun] using this

/-- Witness for C2: chunking "abcde" with size 3 and overlap 1 terminates,
produces chunks at offsets 0, 2, 4 and reconstructs the text. -/
theorem chunkText_correct_witness :
    (0 : Int) ≤ 1 ∧ (1 : Int) < 3 ∧
    (chunkTextFuel (['a', 'b', 'c', 'd', 'e'].length + 1)
          ['a', 'b', 'c', 'd', 'e'] 3 1 =
        some (chunkTextRun ['a', 'b', 'c', 'd', 'e'] 3 1) ∧
      (∀ j : Nat, j < (chunkTextRun ['a', 'b', 'c', 'd', 'e'] 3 1).length ↔
          j * ((3 : Int) - 1).toNat < (['a', 'b', 'c', 'd', 'e'] : List Char).length) ∧
      (∀ j : Nat, j < (chunkTextRun ['a', 'b', 'c', 'd', 'e'] 3 1).length →
          (chunkTextRun ['a', 'b', 'c', 'd', 'e'] 3 1).getD j [] =
            jsSlice ['a', 'b', 'c', 'd', 'e']
              ((j * ((3 : Int) - 1).toNat : Nat) : Int)
              (((j * ((3 : Int) - 1).toNat : Nat) : Int) + 3)) ∧
      reconstruct ((3 : Int) - 1).toNat
          (chunkTextRun ['a', 'b', 'c', 'd', 'e'] 3 1) =
        ['a', 'b', 'c', 'd', 'e']) :=
  ⟨by decide, by decide,
    chunkText_correct ['a', 'b', 'c', 'd', 'e'] 3 1 (by decide) (by decide)⟩

/-- Slicing from `0` to a non-negative `k` is `take`. -/
theorem jsSlice_zero_of_nonneg {α : Type} (l : List α) (k : Int) (hk : 0 ≤ k) :
    jsSlice l 0 k = l.take k.toNat := by
  have := jsSlice_of_nonneg l 0 k le_rfl hk
  simpa using this

/-- Slicing from `0` to a non-positive `k`: `k = 0` gives the empty list and
a negative `k` drops the last `-k` elements. -/
theorem jsSlice_zero_of_nonpos {α : Type} (l : List α) (k : Int) (hk : k ≤ 0) :
    jsSlice l 0 k =
      l.take (if k = 0 then 0 else ((l.length : Int) + k).toNat) := by
  by_cases h0 : k = 0
  · subst h0
    simp [jsSlice]
  · have hneg : k < 0 := by omega
    unfold jsSlice
    simp only [if_pos hneg, if_neg (by omega : ¬ (0 : Int) < 0), if_neg h0]
    rw [min_eq_left (by omega : (0 : Int) ≤ (l.length : Int)), Int.toNat_zero,
      List.drop_zero, List.take_eq_take]
    rcases le_or_lt ((l.length : Int) + k) 0 with hle | hlt
    · rw [max_eq_right hle]
      omega
    · rw [max_eq_left (le_of_lt hlt)]
      omega

/-- The `scores` array carries the original chunk positions `0, …, n-1`. -/
theorem searchScores_map_index (sq : ℚ → ℚ) (embeddings : List (List ℚ))
    (queryVector : List ℚ) :
    (searchScores sq embeddings queryVector).map ScoredEntry.index =
      List.range embeddings.length := by
  unfold searchScores
  rw [List.map_map]
  have hf : (ScoredEntry.index ∘ fun p : Nat × List ℚ =>
      ScoredEntry.mk (cosineScore sq p.2 queryVector) p.1) = Prod.fst := rfl
  rw [hf]
  exact List.enum_map_fst embeddings

/-- The sorted `scores` array is strictly descending in score with ties
broken by strictly ascending original index. -/
theorem rankedEntries_pairwise (sq : ℚ → ℚ) (embeddings : List (List ℚ))
    (queryVector : List ℚ) :
    (rankedEntries sq embeddings queryVector).Pairwise rankStrict := by
  have hsorted : (rankedEntries sq embeddings queryVector).Pairwise rankLE :=
    List.sorted_insertionSort rankLE (searchScores sq embeddings queryVector)
  have hperm : (rankedEntries sq embeddings queryVector).Perm
      (searchScores sq embeddings queryVector) :=
    List.perm_insertionSort rankLE (searchScores sq embeddings queryVector)
  have hnodup : ((rankedEntries sq embeddings queryVector).map
      ScoredEntry.index).Nodup := by
    rw [(hperm.map ScoredEntry.index).nodup_iff, searchScores_map_index]
    exact List.nodup_range embeddings.length
  have hpI : (rankedEntries sq embeddings queryVector).Pairwise
      (fun a b => a.index ≠ b.index) := List.pairwise_map.mp hnodup
  refine (hsorted.and hpI).imp ?_
  rintro a b ⟨hle, hne⟩
  rcases hle with h | ⟨he, hi⟩
  · exact Or.inl h
  · exact Or.inr ⟨he, lt_of_le_of_ne hi hne⟩

/-- The `distances` component is the slice of the `1 - score` image of the
sorted `scores` array: ascending `1 - score` is descending `score`, so the
two independently sorted arrays of `search` line up. -/
theorem search_distances_eq (sq : ℚ → ℚ) (embeddings : List (List ℚ))
    (queryVector : List ℚ) (k : Int) :
    (search sq embeddings queryVector k).distances =
      jsSlice ((rankedEntries sq embeddings queryVector).map
        (fun e => 1 - e.score)) 0 k := by
  unfold search
  have hMsorted : ((rankedEntries sq embeddings queryVector).map
      (fun e => 1 - e.score)).Pairwise (· ≤ ·) := by
    refine (List.sorted_insertionSort rankLE
      (searchScores sq embeddings queryVector)).map _ ?_
    intro a b hab
    rcases hab with h | ⟨he, _⟩
    · linarith
    · linarith [he.le]
  have hperm : (List.insertionSort (fun a b : ℚ => a ≤ b)
      ((searchScores sq embeddings queryVector).map fun s => 1 - s.score)).Perm
      ((rankedEntries sq embeddings queryVector).map fun e => 1 - e.score) :=
    (List.perm_insertionSort _ _).trans
      ((List.perm_insertionSort rankLE
        (searchScores sq embeddings queryVector)).map _).symm
  have heq := List.eq_of_perm_of_sorted hperm
    (List.sorted_insertionSort _ _) hMsorted
  rw [heq]

/-- C3: for a positive `k`, `search` returns the first `min(k, n)` entries of
the `scores` array sorted strictly by descending cosine score with ties
broken by ascending original chunk index (`indices` is the index projection
and `distances` the corresponding `1 - score` values); the sorted array is a
permutation of the per-chunk scores; and on an empty index the result is
empty (the function is total, so no exception is possible). -/
theorem search_ranking_correct (sq : ℚ → ℚ) (embeddings : List (List ℚ))
    (queryVector : List ℚ) (k : Int)
    (hdim : ∀ e ∈ embeddings, e.length = queryVector.length) (hk : 0 < k) :
    (search sq embeddings queryVector k).indices =
        ((rankedEntries sq embeddings queryVector).take k.toNat).map
          ScoredEntry.index ∧
    (search sq embeddings queryVector k).distances =
        ((rankedEntries sq embeddings queryVector).take k.toNat).map
          (fun e => 1 - e.score) ∧
    (rankedEntries sq embeddings queryVector).Perm
        (searchScores sq embeddings queryVector) ∧
    (rankedEntries sq embeddings queryVector).Pairwise rankStrict ∧
    (search sq embeddings queryVector k).indices.length =
        min k.toNat embeddings.length ∧
    (embeddings = [] → search sq embeddings queryVector k = ⟨[], []⟩) := by
  have hperm : (rankedEntries sq embeddings queryVector).Perm
      (searchScores sq embeddings queryVector) :=
    List.perm_insertionSort rankLE (searchScores sq embeddings queryVector)
  have hlen : (rankedEntries sq embeddings queryVector).length =
      embeddings.length := by
    rw [hperm.length_eq]
    unfold searchScores
    rw [List.length_map, List.enum_length]
  have hidx : (search sq embeddings queryVector k).indices =
      ((rankedEntries sq embeddings queryVector).take k.toNat).map
        ScoredEntry.index := by
    show (jsSlice (List.insertionSort rankLE
        (searchScores sq embeddings queryVector)) 0 k).map ScoredEntry.index = _
    rw [jsSlice_zero_of_nonneg _ k (le_of_lt hk)]
    rfl
  refine ⟨hidx, ?_, hperm, rankedEntries_pairwise sq embeddings queryVector,
    ?_, ?_⟩
  · rw [search_distances_eq, jsSlice_zero_of_nonneg _ k (le_of_lt hk),
      List.map_take]
  · rw [hidx, List.length_map, List.length_take, hlen]
  · intro he
    subst he
    unfold search searchScores
    simp [jsSlice, List.insertionSort]

/-- Witness for C3 on a two-chunk index with `k = 3`. -/
theorem search_ranking_correct_witness :
    (∀ e ∈ [[(1 : ℚ)], [(2 : ℚ)]], e.length = [(1 : ℚ)].length) ∧
    (0 : Int) < 3 ∧
    ((search sqrtExact [[(1 : ℚ)], [(2 : ℚ)]] [(1 : ℚ)] 3).indices =
        ((rankedEntries sqrtExact [[(1 : ℚ)], [(2 : ℚ)]] [(1 : ℚ)]).take
          (3 : Int).toNat).map ScoredEntry.index ∧
      (search sqrtExact [[(1 : ℚ)], [(2 : ℚ)]] [(1 : ℚ)] 3).distances =
        ((rankedEntries sqrtExact [[(1 : ℚ)], [(2 : ℚ)]] [(1 : ℚ)]).take
          (3 : Int).toNat).map (fun e => 1 - e.score) ∧
      (rankedEntries sqrtExact [[(1 : ℚ)], [(2 : ℚ)]] [(1 : ℚ)]).Perm
        (searchScores sqrtExact [[(1 : ℚ)], [(2 : ℚ)]] [(1 : ℚ)]) ∧
      (rankedEntries sqrtExact [[(1 : ℚ)], [(2 : ℚ)]] [(1 : ℚ)]).Pairwise
        rankStrict ∧
      (search sqrtExact [[(1 : ℚ)], [(2 : ℚ)]] [(1 : ℚ)] 3).indices.length =
        min (3 : Int).toNat ([[(1 : ℚ)], [(2 : ℚ)]] : List (List ℚ)).length ∧
      (([[(1 : ℚ)], [(2 : ℚ)]] : List (List ℚ)) = [] →
        search sqrtExact [[(1 : ℚ)], [(2 : ℚ)]] [(1 : ℚ)] 3 = ⟨[], []⟩)) :=
  ⟨by decide, by decide,
    search_ranking_correct sqrtExact [[(1 : ℚ)], [(2 : ℚ)]] [(1 : ℚ)] 3
      (by decide) (by decide)⟩

/-- A left fold accumulating sums is the initial value plus the sum of the
mapped list. -/
theorem foldl_add_eq {α : Type} (f : α → ℚ) (l : List α) (a : ℚ) :
    l.foldl (fun s x => s + f x) a = a + (l.map f).sum := by
  induction l generalizing a with
  | nil => simp
  | cons x xs ih => simp [ih, add_assoc]

/-- The squared norm as a sum of squares. -/
theorem sumSq_eq_sum (v : List ℚ) : sumSq v = (v.map fun x => x * x).sum := by
  unfold sumSq
  rw [foldl_add_eq, zero_add]

/-- The dot product as a sum over the enumerated embedding. -/
theorem jsDot_eq_sum (queryVector emb : List ℚ) :
    jsDot queryVector emb =
      (emb.enum.map fun p => p.2 * queryVector.getD p.1 0).sum := by
  unfold jsDot
  rw [foldl_add_eq, zero_add]

/-- A vector of squared norm zero is the zero vector (exact arithmetic). -/
theorem eq_zero_of_sumSq_eq_zero {v : List ℚ} (h : sumSq v = 0) :
    ∀ x ∈ v, x = 0 := by
  rw [sumSq_eq_sum] at h
  induction v with
  | nil => simp
  | cons x xs ih =>
      rw [List.map_cons, List.sum_cons] at h
      have hx : 0 ≤ x * x := mul_self_nonneg x
      have hs : 0 ≤ (xs.map fun x => x * x).sum :=
        List.sum_nonneg (by rintro y hy
                            rw [List.mem_map] at hy
                            obtain ⟨z, _, rfl⟩ := hy
                            exact mul_self_nonneg z)
      obtain ⟨h1, h2⟩ := (add_eq_zero_iff_of_nonneg hx hs).mp h
      intro y hy
      rcases List.mem_cons.mp hy with rfl | hmem
      · exact mul_self_eq_zero.mp h1
      · exact ih h2 y hmem

/-- Reading any position of an all-zero vector with default `0` yields `0`. -/
theorem getD_zero_of_all_zero {v : List ℚ} (h : ∀ x ∈ v, x = 0) (j : Nat) :
    v.getD j 0 = 0 := by
  induction v generalizing j with
  | nil => simp
  | cons x xs ih =>
      cases j with
      | zero => simpa using h x (List.mem_cons_self x xs)
      | succ j =>
          simp only [List.getD_cons_succ]
          exact ih (fun y hy => h y (List.mem_cons_of_mem x hy)) j

/-- If the embedding is the zero vector, the dot product is zero. -/
theorem jsDot_zero_left (queryVector : List ℚ) {emb : List ℚ}
    (h : ∀ x ∈ emb, x = 0) : jsDot queryVector emb = 0 := by
  rw [jsDot_eq_sum]
  refine List.sum_eq_zero ?_
  rintro y hy
  rw [List.mem_map] at hy
  obtain ⟨p, hp, rfl⟩ := hy
  rw [h p.2 (List.snd_mem_of_mem_enum hp), zero_mul]

/-- If the query is the zero vector, the dot product is zero. -/
theorem jsDot_zero_right {queryVector : List ℚ} (emb : List ℚ)
    (h : ∀ x ∈ queryVector, x = 0) : jsDot queryVector emb = 0 := by
  rw [jsDot_eq_sum]
  refine List.sum_eq_zero ?_
  rintro y hy
  rw [List.mem_map] at hy
  obtain ⟨p, _, rfl⟩ := hy
  rw [getD_zero_of_all_zero h, mul_zero]

/-- C4 counterexample: in the upload-time in-memory fallback of the first version
(no `|| 1` guard, app.js lines 99-110) the zero vector scored against the
zero vector gives `0 / (0 * 0)`, i.e. JavaScript `0/0 = NaN` — a non-finite
score, not the claimed `0`. -/
theorem sumSq_zero_singleton : sumSq [(0 : ℚ)] = 0 := by
  simp [sumSq]

theorem sqrtExact_zero : sqrtExact 0 = 0 := by
  simp [sqrtExact]

theorem cosineScoreV1_zero_vector_nan :
    sumSq [(0 : ℚ)] = 0 ∧
    cosineScoreV1 sqrtExact [(0 : ℚ)] [(0 : ℚ)] = none := by
  refine ⟨sumSq_zero_singleton, ?_⟩
  unfold cosineScoreV1
  rw [jsDot_zero_left _ (by intro x hx; simpa using hx), sumSq_zero_singleton,
    sqrtExact_zero, zero_mul]
  rfl

/-- C4 (amended): in `createInMemoryIndex.search` (and the chat-endpoint
fallback that also guards the denominator with `|| 1`), whenever either
vector has zero norm the computed score is exactly `0`: the dot product is
then `0`, `Math.sqrt 0 = 0` makes the norm product `0`, and `0 || 1` turns
the denominator into `1`.  The unguarded first-version fallback instead
produces `NaN`. -/
theorem cosineScore_zero_norm_eq_zero (sq : ℚ → ℚ) (emb queryVector : List ℚ)
    (hsq : sq 0 = 0) (h : sumSq emb = 0 ∨ sumSq queryVector = 0) :
    cosineScore sq emb queryVector = 0 := by
  unfold cosineScore
  rcases h with hA | hB
  · rw [jsDot_zero_left queryVector (eq_zero_of_sumSq_eq_zero hA), hA, hsq,
      zero_mul]
    simp
  · rw [jsDot_zero_right emb (eq_zero_of_sumSq_eq_zero hB), hB, hsq,
      mul_zero]
    simp

/-- Witness for C4 with a zero embedding against a non-zero query. -/
theorem cosineScore_zero_norm_eq_zero_witness :
    sqrtExact 0 = 0 ∧
    (sumSq [(0 : ℚ), 0] = 0 ∨ sumSq [(3 : ℚ)] = 0) ∧
    cosineScore sqrtExact [(0 : ℚ), 0] [(3 : ℚ)] = 0 :=
  ⟨sqrtExact_zero, Or.inl (by simp [sumSq]),
    cosineScore_zero_norm_eq_zero sqrtExact [(0 : ℚ), 0] [(3 : ℚ)]
      sqrtExact_zero (Or.inl (by simp [sumSq]))⟩

/-- C5 counterexample: `search` with `k = 0` on a non-empty index does not
fail — the code has no argument validation and the call silently succeeds,
returning empty distances and indices (the embedded function is total: there
is no error outcome on this path). -/
theorem search_k_zero_silently_succeeds :
    search sqrtExact [[(1 : ℚ)]] [(1 : ℚ)] 0 = ⟨[], []⟩ := by
  decide

/-- C5 (amended): `search` performs no validation of `k`.  A call with
`k ≤ 0` returns normally: `k = 0` yields empty results, and a negative `k`
yields all but the last `-k` ranked entries (JavaScript `slice(0, k)` with a
negative end counts from the end of the array). -/
theorem search_nonpositive_k_no_error (sq : ℚ → ℚ)
    (embeddings : List (List ℚ)) (queryVector : List ℚ) (k : Int)
    (hk : k ≤ 0) :
    (search sq embeddings queryVector k).indices =
        ((rankedEntries sq embeddings queryVector).map ScoredEntry.index).take
          (if k = 0 then 0 else ((embeddings.length : Int) + k).toNat) ∧
    (k = 0 → search sq embeddings queryVector k = ⟨[], []⟩) := by
  have hperm : (rankedEntries sq embeddings queryVector).Perm
      (searchScores sq embeddings queryVector) :=
    List.perm_insertionSort rankLE (searchScores sq embeddings queryVector)
  have hlen : (rankedEntries sq embeddings queryVector).length =
      embeddings.length := by
    rw [hperm.length_eq]
    unfold searchScores
    rw [List.length_map, List.enum_length]
  have hlen2 : (List.insertionSort rankLE
      (searchScores sq embeddings queryVector)).length = embeddings.length :=
    hlen
  constructor
  · show (jsSlice (List.insertionSort rankLE
        (searchScores sq embeddings queryVector)) 0 k).map ScoredEntry.index = _
    rw [jsSlice_zero_of_nonpos _ k hk, hlen2, List.map_take]
    rfl
  · intro h0
    subst h0
    have hd : (search sq embeddings queryVector 0).distances = [] := by
      show jsSlice (List.insertionSort (fun a b : ℚ => a ≤ b)
        ((searchScores sq embeddings queryVector).map fun s => 1 - s.score))
          0 0 = []
      rw [jsSlice_zero_of_nonpos _ 0 le_rfl]
      simp
    have hi : (search sq embeddings queryVector 0).indices = [] := by
      show (jsSlice (List.insertionSort rankLE
        (searchScores sq embeddings queryVector)) 0 0).map ScoredEntry.index = []
      rw [jsSlice_zero_of_nonpos _ 0 le_rfl]
      simp
    cases hres : search sq embeddings queryVector 0 with
    | mk d i =>
        rw [hres] at hd hi
        simp only at hd hi
        rw [hd, hi]

/-- Witness for C5 at `k = -1` on a two-chunk index. -/
theorem search_nonpositive_k_no_error_witness :
    (-1 : Int) ≤ 0 ∧
    ((search sqrtExact [[(1 : ℚ)], [(2 : ℚ)]] [(1 : ℚ)] (-1)).indices =
        ((rankedEntries sqrtExact [[(1 : ℚ)], [(2 : ℚ)]] [(1 : ℚ)]).map
          ScoredEntry.index).take
          (if (-1 : Int) = 0 then 0
            else ((([[(1 : ℚ)], [(2 : ℚ)]] : List (List ℚ)).length : Int) +
              (-1)).toNat) ∧
      ((-1 : Int) = 0 →
        search sqrtExact [[(1 : ℚ)], [(2 : ℚ)]] [(1 : ℚ)] (-1) = ⟨[], []⟩)) :=
  ⟨by decide,
    search_nonpositive_k_no_error sqrtExact [[(1 : ℚ)], [(2 : ℚ)]] [(1 : ℚ)]
      (-1) (by decide)⟩

/-- C6 counterexample: a vector whose only component is `+Infinity` — a
non-finite component — passes the `!isNaN` validation and is returned for
insertion into the index instead of failing the call. -/
theorem embedding_validation_accepts_infinity :
    isFiniteNum JSNumber.posInf = false ∧
    embedChunkStep 0 [JSNumber.posInf] = Except.ok [JSNumber.posInf] := by
  constructor
  · rfl
  · rfl

/-- A component passes the per-element check exactly when it is not `NaN`. -/
theorem element_check_iff (n : JSNumber) :
    (jsTypeofIsNumber n && !(jsIsNaN n)) = true ↔ n ≠ JSNumber.nan := by
  cases n <;> simp [jsTypeofIsNumber, jsIsNaN]

/-- C6 (amended): the upload validation rejects exactly the vectors
containing a `NaN` component: those fail with the invalid-embedding error
and are never inserted, while every other vector — including one containing
`±Infinity` — passes validation and is returned for insertion.  Stored
vectors are therefore `NaN`-free but not necessarily finite. -/
theorem embedding_validation_rejects_exactly_nan (i : Nat) (v : List JSNumber) :
    ((∃ e, embedChunkStep i v = Except.error e) ↔ JSNumber.nan ∈ v) ∧
    (embedChunkStep i v = Except.ok v ↔ JSNumber.nan ∉ v) := by
  have hval : validateEmbedding v = true ↔ JSNumber.nan ∉ v := by
    unfold validateEmbedding
    rw [List.all_eq_true]
    constructor
    · intro h hmem
      exact (element_check_iff JSNumber.nan).mp (h _ hmem) rfl
    · intro h n hn
      exact (element_check_iff n).mpr (fun hcontr => h (hcontr ▸ hn))
  unfold embedChunkStep
  by_cases hv : validateEmbedding v = true
  · rw [if_pos hv]
    constructor
    · constructor
      · rintro ⟨e, he⟩
        exact absurd he (by simp)
      · intro hmem
        exact absurd hmem (hval.mp hv)
    · simpa using hval.mp hv
  · rw [if_neg hv]
    constructor
    · constructor
      · intro _
        by_contra hmem
        exact hv (hval.mpr hmem)
      · intro _
        exact ⟨_, rfl⟩
    · constructor
      · intro h
        exact absurd h (by simp)
      · intro hmem
        exact absurd (hval.mpr hmem) hv

/-- C7 counterexample: a session whose `lastAccessed` is `0` (falsy) is kept
by the sweep even though `now - lastAccessed > timeout`, because the code
tests `sessions[id].lastAccessed &&` before the age comparison; the claim
says such a session is removed. -/
theorem cleanup_keeps_falsy_lastAccessed :
    SESSION_TIMEOUT < (SESSION_TIMEOUT + 1) - (Session.mk [] [] [] 0).lastAccessed ∧
    cleanupExpiredSessions [("s", Session.mk [] [] [] 0)]
        (SESSION_TIMEOUT + 1) SESSION_TIMEOUT =
      [("s", Session.mk [] [] [] 0)] := by
  constructor
  · decide
  · rfl

/-- C7 (amended): the sweep keeps exactly the entries with a falsy (zero)
`lastAccessed` or with `now - lastAccessed ≤ timeout`, and removes all
others; it is a sublist of the original store (nothing is added or
reordered).  The function returns no count. -/
theorem cleanup_membership_characterization (store : List (String × Session))
    (now timeout : Int) :
    (cleanupExpiredSessions store now timeout).Sublist store ∧
    (∀ e : String × Session, e ∈ cleanupExpiredSessions store now timeout ↔
      e ∈ store ∧
        (e.2.lastAccessed = 0 ∨ now - e.2.lastAccessed ≤ timeout)) := by
  refine ⟨List.filter_sublist store, ?_⟩
  intro e
  unfold cleanupExpiredSessions
  rw [List.mem_filter]
  simp [sessionExpired, not_lt, or_iff_not_imp_left]

/-- C8: a well-formed request naming an unknown session yields the not-found
response with the store unchanged and without reaching any model call; a
request with a missing or blank `session_id` or `message` yields a
bad-request response, again with the store unchanged and before any model
call. -/
theorem chat_failfast_store_unchanged (store : List (String × Session))
    (session_id message : Option String) (now : Int) :
    (∀ sid msg, session_id = some sid → sid ≠ "" → message = some msg →
      isBlank msg = false → lookupSession store sid = none →
        chatValidate store session_id message now =
            (ChatValidation.notFound, store) ∧
          reachesModelCalls ChatValidation.notFound = false) ∧
    ((session_id = none ∨ session_id = some "" ∨ message = none ∨
        (∃ m, message = some m ∧ isBlank m = true)) →
      isBadRequest (chatValidate store session_id message now).1 = true ∧
        (chatValidate store session_id message now).2 = store ∧
        reachesModelCalls (chatValidate store session_id message now).1 =
          false) := by
  constructor
  · rintro sid msg rfl h2 rfl h4 h5
    refine ⟨?_, rfl⟩
    simp [chatValidate, h2, h4, h5]
  · intro h
    cases session_id with
    | none => exact ⟨rfl, rfl, rfl⟩
    | some sid =>
        by_cases hsid : sid = ""
        · subst hsid
          simp [chatValidate, isBadRequest, reachesModelCalls]
        · rcases h with h | h | h | ⟨m, hm, ht⟩
          · exact absurd h (by simp)
          · exact absurd h (by simp [hsid])
          · subst h
            simp [chatValidate, hsid, isBadRequest, reachesModelCalls]
          · subst hm
            simp [chatValidate, hsid, ht, isBadRequest, reachesModelCalls]

/-- Witness for C8: unknown session in an empty store with valid fields. -/
theorem chat_failfast_store_unchanged_witness :
    (some "x" = some "x" ∧ "x" ≠ "" ∧ some "hi" = some "hi" ∧
      isBlank "hi" = false ∧ lookupSession [] "x" = none) ∧
    chatValidate [] (some "x") (some "hi") 0 = (ChatValidation.notFound, []) ∧
    reachesModelCalls ChatValidation.notFound = false :=
  ⟨⟨rfl, by decide, rfl, by decide, rfl⟩,
    (chat_failfast_store_unchanged [] (some "x") (some "hi") 0).1 "x" "hi"
      rfl (by decide) rfl (by decide) rfl⟩

/-- C9: the search indices are filtered to the valid range
`[0, chunks.length)` keeping rank order (a sublist of the input, containing
exactly the in-range occurrences); with no valid index the context is the
literal sentinel and the citations are empty; otherwise the context is the
valid chunks joined by newline in rank order and the citations are the
corresponding pages in the same rank order (duplicates preserved, being a
plain map over the valid indices). -/
theorem chat_context_assembly (chunks : List String) (pages : List Nat)
    (indices : List Int) :
    (validIndices chunks indices).Sublist indices ∧
    (∀ i : Int, i ∈ validIndices chunks indices ↔
      i ∈ indices ∧ 0 ≤ i ∧ i < (chunks.length : Int)) ∧
    (validIndices chunks indices = [] →
      assembleContext chunks pages indices =
        ("No relevant context found", [])) ∧
    (validIndices chunks indices ≠ [] →
      assembleContext chunks pages indices =
        (String.intercalate "\n"
            ((validIndices chunks indices).map fun i => chunks.getD i.toNat ""),
          (validIndices chunks indices).map (citationPage pages))) := by
  refine ⟨List.filter_sublist indices, ?_, ?_, ?_⟩
  · intro i
    unfold validIndices
    rw [List.mem_filter]
    simp
  · intro h
    unfold assembleContext
    rw [h]
    simp
  · intro h
    unfold assembleContext
    rw [if_pos (List.length_pos.mpr h), if_pos (List.length_pos.mpr h)]

/-- Witness for C9 with one out-of-range, one negative and two valid search
indices against a two-chunk session. -/
theorem chat_context_assembly_witness :
    validIndices ["a", "b"] [1, -1, 5, 0] ≠ [] ∧
    assembleContext ["a", "b"] [1, 1] [1, -1, 5, 0] =
      (String.intercalate "\n"
          ((validIndices ["a", "b"] [1, -1, 5, 0]).map fun i =>
            (["a", "b"] : List String).getD i.toNat ""),
        (validIndices ["a", "b"] [1, -1, 5, 0]).map (citationPage [1, 1])) :=
  ⟨by decide,
    (chat_context_assembly ["a", "b"] [1, 1] [1, -1, 5, 0]).2.2.2 (by decide)⟩

/-- C10: when the rate limiter rejects an upload it returns `false` before
any write to the tracker: the whole tracker map — in particular the
entry of the rejected client — is unchanged, so the rejected attempt is never
recorded; and rejection happens exactly when the client already has
`UPLOAD_RATE_LIMIT` recorded uploads inside the window. -/
theorem rate_limit_reject_frame (tracker : List (String × List Int))
    (ip : String) (now : Int)
    (h : (checkUploadRateLimit tracker ip now).1 = false) :
    (checkUploadRateLimit tracker ip now).2 = tracker ∧
    UPLOAD_RATE_LIMIT ≤
      ((trackerGet tracker ip).filter fun t =>
        decide (now - t < UPLOAD_WINDOW)).length := by
  unfold checkUploadRateLimit at h ⊢
  split_ifs at h ⊢ with hc
  exact ⟨rfl, hc⟩

/-- Witness for C10: a client with five in-window uploads is rejected and
its tracker entry is untouched. -/
theorem rate_limit_reject_frame_witness :
    (checkUploadRateLimit [("a", [1, 1, 1, 1, 1])] "a" 2).1 = false ∧
    ((checkUploadRateLimit [("a", [1, 1, 1, 1, 1])] "a" 2).2 =
        [("a", [1, 1, 1, 1, 1])] ∧
      UPLOAD_RATE_LIMIT ≤
        ((trackerGet [("a", [1, 1, 1, 1, 1])] "a").filter fun t =>
          decide ((2 : Int) - t < UPLOAD_WINDOW)).length) :=
  ⟨by decide,
    rate_limit_reject_frame [("a", [1, 1, 1, 1, 1])] "a" 2 (by decide)⟩

end NotebookLM
